import Mathlib

/-!
Verification of the Bond-Centric Model (BCM) engine of `ce_expansion`
(`ce_expansion/atomgraph/bcm.py`) against its natural-language specification.

The Python code is shallowly embedded: numpy arrays become lists, numpy
fancy indexing becomes `npGet` (which reproduces numpy's negative-index
wraparound and its `IndexError` as `Option.none`), vectorized operations
that fail when any element fails become `omap`, and the `for` loops of
`calc_ee` / `metropolis` become `ofold`.  Floating-point numbers are
idealized as real numbers.
-/

namespace CE

/-- Numpy-style integer indexing into a 1-D array: a nonnegative index `i`
hits position `i` (out of bounds raises, i.e. `none`), a negative index `i`
with `-len ≤ i` hits position `len + i`, and anything else raises. -/
def npGet {α : Type} (l : List α) (i : Int) : Option α :=
  if 0 ≤ i then l.get? i.toNat
  else if (-i).toNat ≤ l.length then l.get? (l.length - (-i).toNat) else none

/-- Numpy-style indexing `mat[x, y]` into a matrix stored as a list of rows. -/
def npGet2 {α : Type} (mat : List (List α)) (x y : Int) : Option α := do
  let row ← npGet mat x
  npGet row y

/-- Embedding of `np.bincount`: entry `i` (for `i` up to the maximum of the
input) is the number of occurrences of `i`; the empty input gives the empty
array, exactly as numpy does (no `minlength` is passed in the source). -/
def bincount (l : List ℕ) : List ℕ :=
  (List.range (if l.isEmpty then 0 else l.foldr max 0 + 1)).map fun i => l.count i

/-- Option-valued map over a list: models a numpy vectorized operation that
raises (`none`) as soon as any element raises. -/
def omap {α β : Type} (f : α → Option β) : List α → Option (List β)
  | [] => some []
  | a :: as => do
    let b ← f a
    let bs ← omap f as
    pure (b :: bs)

/-- Option-valued left fold over a list of step indices: models a Python
`for` loop whose body may raise. -/
def ofold {σ : Type} (f : σ → ℕ → Option σ) : List ℕ → σ → Option σ
  | [], s => some s
  | a :: as, s =>
    match f s a with
    | none => none
    | some s' => ofold f as s'

/-- State of a `BCModel` instance after `__init__` has run.

`natoms` is `len(self.atoms)`, `bond_list` the (caller-supplied or
adjacency-derived) list of directed bonds, `nmet` the number of metal
types (`len(self.metal_types)`).  `gamma i j` and `ce_bulk i` are the
entries of the `self.gammas` / `self.ce_bulk` dictionaries looked up at
the codes of the sorted metal list; they come from the external
`GammaValues` parameter table, which the spec treats as an opaque
collaborator, so they are abstract parameters here. -/
structure BCModel where
  natoms : ℕ
  bond_list : List (ℕ × ℕ)
  nmet : ℕ
  gamma : ℕ → ℕ → ℝ
  ce_bulk : ℕ → ℝ

/-- The source columns `self.a1 = self.bond_list[:, 0]`. -/
def BCModel.a1 (m : BCModel) : List ℕ := m.bond_list.map Prod.fst

/-- The source columns `self.a2 = self.bond_list[:, 1]`. -/
def BCModel.a2 (m : BCModel) : List ℕ := m.bond_list.map Prod.snd

/-- The coordination-number vector `self.cn = np.bincount(self.bond_list[:, 0])`. -/
def BCModel.cn (m : BCModel) : List ℕ := bincount m.a1

/-- The precomputed coefficient matrix built by `_get_precomps`: the double
loop over `range(n_met)` fills `precomps[i, j] = gammas[M1][M2] * ce_bulk[M1]`
(overwriting every entry of the initial `np.ones`). -/
noncomputable def BCModel.precomps (m : BCModel) : List (List ℝ) :=
  (List.range m.nmet).map fun i => (List.range m.nmet).map fun j =>
    m.gamma i j * m.ce_bulk i

/-- Entry `(i, j)` of the precomputed coefficient matrix (with defaults that
are only reached out of bounds). -/
noncomputable def BCModel.precompAt (m : BCModel) (i j : ℕ) : ℝ :=
  (m.precomps.getD i []).getD j 0

/-- The per-bond normalization `self.cn_precomps = np.sqrt(self.cn * 12)[self.a1]`.
Every source index is within bounds of `cn` by construction of `bincount`. -/
noncomputable def BCModel.cn_precomps (m : BCModel) : List ℝ :=
  m.a1.map fun s => Real.sqrt ((m.cn.getD s 0 * 12 : ℕ) : ℝ)

/-- Embedding of `BCModel.calc_ce`:
`(self.precomps[orderings[self.a1], orderings[self.a2]] / self.cn_precomps).sum() / len(self.atoms)`.
Each directed bond `(s, d)` contributes
`precomps[orderings[s], orderings[d]] / sqrt(cn[s] * 12)`, where all array
accesses use numpy index semantics (`npGet`); the whole call raises
(`none`) iff any access raises. -/
noncomputable def BCModel.calc_ce (m : BCModel) (o : List Int) : Option ℝ :=
  (omap (fun b : ℕ × ℕ => do
      let x ← npGet o (b.1 : Int)
      let y ← npGet o (b.2 : Int)
      let p ← npGet2 m.precomps x y
      pure (p / Real.sqrt ((m.cn.getD b.1 0 * 12 : ℕ) : ℝ))) m.bond_list).map
    fun terms => terms.sum / (m.natoms : ℝ)

/-- The Boltzmann constant `ase.units.kB` in eV/K, i.e. the exact rational
`1.380649e-23 / 1.602176634e-19`. -/
noncomputable def kB : ℝ := 1380649 / 16021766340

/-- Embedding of `BCModel.calc_smix`.  `np.bincount` raises on a negative
entry; otherwise `x_i = np.bincount(orderings) / len(orderings)`, the zero
fractions are dropped (`x_i = x_i[x_i != 0]`), and the result is
`-kb * sum(x_i * np.log(x_i))`. -/
noncomputable def BCModel.calc_smix (_m : BCModel) (o : List Int) : Option ℝ :=
  if o.any (fun v => decide (v < 0)) then none
  else
    some (-kB * (((((bincount (o.map Int.toNat)).map fun c : ℕ => (c : ℝ) / (o.length : ℝ)).filter
      fun v => @decide (v ≠ 0) (Classical.propDecidable _)).map fun v => v * Real.log v).sum))

/-- Embedding of `BCModel.calc_ee`.  `metals = np.bincount(orderings)`
raises on a negative entry; the slice assignment
`x_i[:len(metals)] = metals / metals.sum()` raises when `len(metals)`
exceeds `len(self.metal_types)`; afterwards `x_i[ele]` is
`metals[ele] / metals.sum()` below `len(metals)` and `0` above it.  The
loop subtracts `calc_ce(o_mono_x) * x_ele` for every metal code. -/
noncomputable def BCModel.calc_ee (m : BCModel) (o : List Int) : Option ℝ :=
  if o.any (fun v => decide (v < 0)) then none
  else if m.nmet < (bincount (o.map Int.toNat)).length then none
  else
    match m.calc_ce o with
    | none => none
    | some ce0 =>
      ofold (fun acc ele =>
          (m.calc_ce (List.replicate m.natoms (ele : Int))).map
            fun ce_m => acc - ce_m *
              (if ele < (bincount (o.map Int.toNat)).length
               then ((bincount (o.map Int.toNat)).getD ele 0 : ℝ) /
                 ((bincount (o.map Int.toNat)).sum : ℝ)
               else 0))
        (List.range m.nmet) ce0

/-- Embedding of `BCModel.calc_gmix`:
`self.calc_ee(orderings) - T * self.calc_smix(orderings)` (the Python
default is `T = 298.15`). -/
noncomputable def BCModel.calc_gmix (m : BCModel) (o : List Int) (T : ℝ) : Option ℝ :=
  match m.calc_ee o, m.calc_smix o with
  | some ee, some s => some (ee - T * s)
  | _, _ => none

/-- The simultaneous assignment
`ordering[i], ordering[j] = ordering[j], ordering[i]`. -/
def listSwap (l : List Int) (i j : ℕ) : List Int :=
  (l.set i (l.getD j 0)).set j (l.getD i 0)

/-- Loop state of `metropolis`: the variables `ordering`, `best_ordering`,
`best_energy`, `prev_energy`, and the prefix of `energy_history` filled so
far (the slot `energy_history[step]` is written exactly once per
iteration, in both branches, so the array is a growing list here). -/
structure MetState where
  ord : List Int
  best : List Int
  bestE : ℝ
  prevE : ℝ
  hist : List ℝ

/-- One iteration of the `metropolis` loop body.  The random draws of the
iteration are supplied by `rng step = (i, j, u)` where `i, j` model
`np.random.choice(ordering_indices, 2, replace=False)` and `u` models
`np.random.uniform()`.  Note that the source never reassigns
`prev_energy` inside the loop. -/
noncomputable def metStep (m : BCModel) (rng : ℕ → ℕ × ℕ × ℝ) (st : MetState)
    (step : ℕ) : Option MetState :=
  (m.calc_ce (listSwap st.ord (rng step).1 (rng step).2.1)).map fun e =>
    if (rng step).2.2 < e / st.prevE then
      -- Commit to the step (`ratio > np.random.uniform()`)
      { ord := listSwap st.ord (rng step).1 (rng step).2.1,
        best := if e < st.bestE then listSwap st.ord (rng step).1 (rng step).2.1
                else st.best,
        bestE := if e < st.bestE then e else st.bestE,
        prevE := st.prevE,
        hist := st.hist ++ [e] }
    else
      -- Reject the step: `ordering = prev_ordering.copy()`
      { ord := st.ord, best := st.best, bestE := st.bestE,
        prevE := st.prevE, hist := st.hist ++ [st.prevE] }

/-- Embedding of `BCModel.metropolis`.  With `num_steps = 0` the source
raises (`energy_history[0] = best_energy` on `np.zeros(0)`); otherwise the
initial state sets `ordering` and `best_ordering` to copies of the input,
`best_energy = prev_energy = calc_ce(ordering)`, `energy_history[0]` to
that energy, and runs the loop body for `step in range(1, num_steps)`,
returning `(best_ordering, best_energy, energy_history)`. -/
noncomputable def BCModel.metropolis (m : BCModel) (o : List Int) (num_steps : ℕ)
    (rng : ℕ → ℕ × ℕ × ℝ) : Option (List Int × ℝ × List ℝ) :=
  if num_steps = 0 then none
  else
    match m.calc_ce o with
    | none => none
    | some e0 =>
      match ofold (metStep m rng) (List.range' 1 (num_steps - 1))
          ⟨o, o, e0, e0, [e0]⟩ with
      | none => none
      | some st => some (st.best, st.bestE, st.hist)

/-- The provisional surface shell `srf = np.where(self.cn < 12)[0]`:
all indices of the `cn` array whose value is under 12. -/
def BCModel.srf (m : BCModel) : List ℕ :=
  (List.range m.cn.length).filter fun i => m.cn.getD i 0 < 12

/-- The entry `coord_dict[i] = set(bond_list[bond_list[:, 0] == i].ravel())`:
all atom indices appearing (in either column) in a bond row whose source
is `i`. -/
def BCModel.coordSet (m : BCModel) (i : ℕ) : Finset ℕ :=
  ((m.bond_list.filter fun b => b.1 = i).foldr
    (fun b s => insert b.1 (insert b.2 s)) ∅)

/-- One round of the `while remaining_atoms:` loop of `shell_map`:
`[i for i in remaining_atoms if coord_dict[i] - remaining_atoms]`, i.e.
the remaining atoms whose `coord_dict` entry meets an already-removed
atom.  The Python `set` iteration order is unspecified; the round is
recorded in ascending index order. -/
def BCModel.shellRound (m : BCModel) (remaining : Finset ℕ) : List ℕ :=
  (remaining.sort (· ≤ ·)).filter fun i => decide (¬ m.coordSet i ⊆ remaining)

/-- The `while remaining_atoms:` loop of `shell_map`, producing the
successive shells in assignment order (provisional keys `-1, -2, ...`).
A round that assigns nothing while atoms remain makes the source loop
spin forever, which is modeled as `none`; `fuel` bounds the rounds (each
productive round removes at least one atom, so `natoms` rounds
suffice). -/
def BCModel.shellRoundsAux (m : BCModel) : ℕ → Finset ℕ → Option (List (List ℕ))
  | 0, remaining => if remaining = ∅ then some [] else none
  | fuel + 1, remaining =>
    if remaining = ∅ then some []
    else if m.shellRound remaining = [] then none
    else (m.shellRoundsAux fuel (remaining \ (m.shellRound remaining).toFinset)).map
      fun rest => m.shellRound remaining :: rest

/-- Embedding of the `shell_map` cached property.  The source builds a dict
with keys `0, -1, ..., -(L-1)` (surface first) and renumbers by
`k - cur_shell`, so key `s` of the final dict holds the round assigned at
provisional key `s - (L-1)`.  Equivalently, the final dict is the list of
rounds in reverse assignment order: index `0` is the innermost
(last-assigned) shell and index `L - 1` is the surface `srf`.  `none`
models the nonterminating loop. -/
def BCModel.shell_map (m : BCModel) : Option (List (List ℕ)) :=
  (m.shellRoundsAux m.natoms (Finset.range m.natoms \ m.srf.toFinset)).map
    fun rounds => (m.srf :: rounds).reverse

/-- Embedding of the `num_shells` cached property, `max(self.shell_map)`:
the largest key of the shell dict, i.e. one less than the number of
shells. -/
def BCModel.num_shells (m : BCModel) : Option ℕ :=
  m.shell_map.map fun sm => sm.length - 1

/-- Squared Euclidean distance between two rational 3-D points. -/
def sqDist (p q : ℚ × ℚ × ℚ) : ℚ :=
  (p.1 - q.1) ^ 2 + (p.2.1 - q.2.1) ^ 2 + (p.2.2 - q.2.2) ^ 2

/-- Modelled from the spec: `adjacency.build_bonds_arr` is not under
`src/`.  Per spec §4.1, for every unordered pair of atoms whose Euclidean
distance is at most the cutoff it emits both directed bonds and excludes
self-bonds (distance `≤ cutoff` is compared on squares to stay in `ℚ`). -/
def build_bonds_arr (pos : List (ℚ × ℚ × ℚ)) (cutoff : ℚ) : List (ℕ × ℕ) :=
  (List.range pos.length).flatMap fun i =>
    ((List.range pos.length).filter fun j =>
      decide (i ≠ j) && decide (sqDist (pos.getD i (0,0,0)) (pos.getD j (0,0,0)) ≤ cutoff ^ 2)).map
      fun j => (i, j)

/-- Well-formed bond list: both endpoints of every bond are atom indices.
This holds for every bond list produced by `adjacency.build_bonds_arr`
and is assumed of caller-supplied bond lists. -/
def BCModel.WF (m : BCModel) : Prop :=
  ∀ b ∈ m.bond_list, b.1 < m.natoms ∧ b.2 < m.natoms

instance (m : BCModel) : Decidable m.WF := by
  unfold BCModel.WF; infer_instance

/-! ### Heap model for the aliasing behavior of `metropolis`

To state that `metropolis` never mutates the caller's array, numpy arrays
are modeled as references into a store; `.copy()` allocates a fresh
reference and the in-place element swap writes through the current
`ordering` reference. -/

/-- A store of numpy integer arrays: `arrs r` is the contents of reference
`r`, and references below `next` are the allocated ones. -/
structure Store where
  arrs : ℕ → List Int
  next : ℕ

/-- Allocate a fresh array holding `l` (models `.copy()` and array
construction). -/
def Store.alloc (σ : Store) (l : List Int) : ℕ × Store :=
  (σ.next, ⟨fun r => if r = σ.next then l else σ.arrs r, σ.next + 1⟩)

/-- Overwrite the contents of reference `r` (models in-place mutation). -/
def Store.write (σ : Store) (r : ℕ) (l : List Int) : Store :=
  ⟨fun q => if q = r then l else σ.arrs q, σ.next⟩

/-- Loop state of `metropolis` in the store model: which references the
variables `ordering` and `best_ordering` currently denote, plus the
scalar state. -/
structure MetStateST where
  ordR : ℕ
  bestR : ℕ
  bestE : ℝ
  prevE : ℝ
  hist : List ℝ

/-- The reference allocated for `prev_ordering = ordering.copy()` at the
top of one loop iteration. -/
def prevRef (σ : Store) (ordR : ℕ) : ℕ := (σ.alloc (σ.arrs ordR)).1

/-- The store after `prev_ordering = ordering.copy()` followed by the
in-place tuple swap `ordering[i], ordering[j] = ordering[j], ordering[i]`
through the `ordering` reference. -/
def swapStore (σ : Store) (ordR i j : ℕ) : Store :=
  (σ.alloc (σ.arrs ordR)).2.write ordR
    (listSwap ((σ.alloc (σ.arrs ordR)).2.arrs ordR) i j)

/-- One iteration of the `metropolis` loop body in the store model:
`prev_ordering = ordering.copy()` allocates, the tuple swap mutates the
`ordering` array in place (`swapStore`), acceptance with a new best does
`best_ordering = ordering.copy()`, and rejection rebinds `ordering` to a
fresh `prev_ordering.copy()`. -/
noncomputable def metStepST (m : BCModel) (rng : ℕ → ℕ × ℕ × ℝ)
    (s : Store × MetStateST) (step : ℕ) : Option (Store × MetStateST) :=
  (m.calc_ce ((swapStore s.1 s.2.ordR (rng step).1 (rng step).2.1).arrs s.2.ordR)).map
    fun e =>
      if (rng step).2.2 < e / s.2.prevE then
        if e < s.2.bestE then
          (((swapStore s.1 s.2.ordR (rng step).1 (rng step).2.1).alloc
              ((swapStore s.1 s.2.ordR (rng step).1 (rng step).2.1).arrs s.2.ordR)).2,
           ⟨s.2.ordR,
            ((swapStore s.1 s.2.ordR (rng step).1 (rng step).2.1).alloc
              ((swapStore s.1 s.2.ordR (rng step).1 (rng step).2.1).arrs s.2.ordR)).1,
            e, s.2.prevE, s.2.hist ++ [e]⟩)
        else
          (swapStore s.1 s.2.ordR (rng step).1 (rng step).2.1,
           ⟨s.2.ordR, s.2.bestR, s.2.bestE, s.2.prevE, s.2.hist ++ [e]⟩)
      else
        (((swapStore s.1 s.2.ordR (rng step).1 (rng step).2.1).alloc
            ((swapStore s.1 s.2.ordR (rng step).1 (rng step).2.1).arrs
              (prevRef s.1 s.2.ordR))).2,
         ⟨((swapStore s.1 s.2.ordR (rng step).1 (rng step).2.1).alloc
            ((swapStore s.1 s.2.ordR (rng step).1 (rng step).2.1).arrs
              (prevRef s.1 s.2.ordR))).1,
          s.2.bestR, s.2.bestE, s.2.prevE, s.2.hist ++ [s.2.prevE]⟩)

/-- The first two statements of `metropolis` in the store model:
`ordering = ordering.copy()` then `best_ordering = ordering.copy()`.
Returns the store after both allocations together with the references of
`ordering` and `best_ordering`. -/
def metCopies (σ : Store) (inR : ℕ) : Store × ℕ × ℕ :=
  (((σ.alloc (σ.arrs inR)).2.alloc
      ((σ.alloc (σ.arrs inR)).2.arrs (σ.alloc (σ.arrs inR)).1)).2,
   (σ.alloc (σ.arrs inR)).1,
   ((σ.alloc (σ.arrs inR)).2.alloc
      ((σ.alloc (σ.arrs inR)).2.arrs (σ.alloc (σ.arrs inR)).1)).1)

/-- Embedding of `BCModel.metropolis` in the store model.  The caller's
array is the reference `inR`; `metCopies` performs the two initial
copies, and the loop runs over `range(1, num_steps)` as in the pure
embedding. -/
noncomputable def BCModel.metropolisST (m : BCModel) (inR : ℕ) (num_steps : ℕ)
    (rng : ℕ → ℕ × ℕ × ℝ) (σ : Store) : Option ((ℕ × ℝ × List ℝ) × Store) :=
  if num_steps = 0 then none
  else
    (m.calc_ce ((metCopies σ inR).1.arrs (metCopies σ inR).2.1)).bind fun e0 =>
      (ofold (metStepST m rng) (List.range' 1 (num_steps - 1))
          ((metCopies σ inR).1,
           ⟨(metCopies σ inR).2.1, (metCopies σ inR).2.2, e0, e0, [e0]⟩)).map
        fun s => ((s.2.bestR, s.2.bestE, s.2.hist), s.1)

/-! ### Concrete instances used by witnesses and counterexamples -/

/-- A 4-atom model with a directed star bond list `0→1, 0→2, 0→3`
(`bond_list` is caller-supplied in `__init__`, so any list of index pairs
is a legal skeleton input).  Atom 0 has coordination number 3, so every
per-bond normalization is `sqrt(3 * 12) = 6` and all energies are
rational. -/
noncomputable def starM : BCModel :=
  { natoms := 4
    bond_list := [(0, 1), (0, 2), (0, 3)]
    nmet := 2
    gamma := fun i j =>
      if i = 0 then (if j = 0 then 24 else 48) else (if j = 0 then 40 else 0)
    ce_bulk := fun _ => 1 }

/-- A 2-atom, 2-metal model with the symmetric dimer bond list. -/
noncomputable def dimM : BCModel :=
  { natoms := 2
    bond_list := [(0, 1), (1, 0)]
    nmet := 2
    gamma := fun _ _ => 1
    ce_bulk := fun _ => 1 }

/-- A 2-metal model exhibiting the asymmetry of the coefficient matrix:
`gamma` is symmetric but the bulk cohesive energies differ. -/
noncomputable def asymM : BCModel :=
  { natoms := 2
    bond_list := [(0, 1), (1, 0)]
    nmet := 2
    gamma := fun _ _ => 1
    ce_bulk := fun i => if i = 0 then 1 else 2 }

/-- A 1-atom model whose bond list comes from the (spec-modelled) bond
builder: no pair of atoms exists, so the bond list is empty. -/
noncomputable def oneAtomM : BCModel :=
  { natoms := 1
    bond_list := build_bonds_arr [(0, 0, 0)] 3
    nmet := 1
    gamma := fun _ _ => 1
    ce_bulk := fun _ => 1 }

/-- Random stream that always proposes the swap `(0, 1)` and draws `u = 0`. -/
def rngA : ℕ → ℕ × ℕ × ℝ := fun _ => (0, 1, 0)

/-- Random stream proposing the swap `(0, 1)` every step, with draw `0` at
step 1 and `0.99` afterwards. -/
noncomputable def rngB : ℕ → ℕ × ℕ × ℝ := fun k => if k = 1 then (0, 1, 0) else (0, 1, 0.99)

/-! ### Basic lemmas about the embedding primitives -/

theorem npGet_nat {α : Type} (l : List α) (n : ℕ) (d : α) (h : n < l.length) :
    npGet l (n : Int) = some (l.getD n d) := by
  simp [npGet, Int.toNat_natCast, List.getD_eq_getElem?_getD, List.getElem?_eq_getElem h,
    List.get?_eq_getElem?]

theorem getElem?_isSome_iff {α : Type} (l : List α) (n : ℕ) :
    (l[n]?).isSome = true ↔ n < l.length := by
  cases h : l[n]? with
  | none => simp_all [List.getElem?_eq_none_iff]
  | some v => simp_all [List.getElem?_eq_some]; exact h.1

theorem npGet_isSome_iff {α : Type} (l : List α) (i : Int) :
    (npGet l i).isSome ↔ -(l.length : Int) ≤ i ∧ i < (l.length : Int) := by
  unfold npGet
  by_cases h0 : 0 ≤ i
  · rw [if_pos h0, List.get?_eq_getElem?, getElem?_isSome_iff]
    omega
  · rw [if_neg h0]
    by_cases hle : (-i).toNat ≤ l.length
    · rw [if_pos hle, List.get?_eq_getElem?, getElem?_isSome_iff]
      omega
    · rw [if_neg hle]
      simp only [Option.isSome_none, Bool.false_eq_true, false_iff]
      omega

theorem omap_eq_map {α β : Type} (f : α → Option β) (g : α → β) :
    ∀ L : List α, (∀ a ∈ L, f a = some (g a)) → omap f L = some (L.map g)
  | [], _ => rfl
  | a :: as, h => by
    have ha := h a (List.mem_cons_self a as)
    have hrec := omap_eq_map f g as fun b hb => h b (List.mem_cons_of_mem a hb)
    simp [omap, ha, hrec]

theorem omap_isSome {α β : Type} (f : α → Option β) :
    ∀ L : List α, (∀ a ∈ L, (f a).isSome) → ∃ bs, omap f L = some bs
  | [], _ => ⟨[], rfl⟩
  | a :: as, h => by
    obtain ⟨b, hb⟩ := Option.isSome_iff_exists.mp (h a (List.mem_cons_self a as))
    obtain ⟨bs, hbs⟩ := omap_isSome f as fun c hc => h c (List.mem_cons_of_mem a hc)
    exact ⟨b :: bs, by simp [omap, hb, hbs]⟩

theorem ofold_invariant {σ : Type} (f : σ → ℕ → Option σ) (P : σ → Prop)
    (hstep : ∀ s a s', P s → f s a = some s' → P s') :
    ∀ (L : List ℕ) (s s' : σ), P s → ofold f L s = some s' → P s'
  | [], s, s', hP, h => by
    simp only [ofold, Option.some.injEq] at h
    exact h ▸ hP
  | a :: as, s, s', hP, h => by
    simp only [ofold] at h
    cases hfa : f s a with
    | none => rw [hfa] at h; exact absurd h (by simp)
    | some s1 =>
      rw [hfa] at h
      exact ofold_invariant f P hstep as s1 s' (hstep s a s1 hP hfa) h

theorem ofold_sub (g : ℕ → Option ℝ) (gv : ℕ → ℝ) (x : ℕ → ℝ) :
    ∀ (L : List ℕ) (acc : ℝ), (∀ a ∈ L, g a = some (gv a)) →
      ofold (fun acc ele => (g ele).map fun v => acc - v * x ele) L acc
        = some (acc - ((L.map fun ele => gv ele * x ele).sum))
  | [], acc, _ => by simp [ofold]
  | a :: as, acc, h => by
    have ha := h a (List.mem_cons_self a as)
    have hrec := ofold_sub g gv x as (acc - gv a * x a)
      fun b hb => h b (List.mem_cons_of_mem a hb)
    simp only [ofold, ha, Option.map_some']
    rw [hrec]
    congr 1
    rw [List.map_cons, List.sum_cons]
    ring

theorem bincount_length (l : List ℕ) :
    (bincount l).length = if l.isEmpty then 0 else l.foldr max 0 + 1 := by
  simp [bincount]

theorem le_foldr_max : ∀ (l : List ℕ), ∀ a ∈ l, a ≤ l.foldr max 0
  | _ :: as, a, h => by
    rcases List.mem_cons.mp h with h | h
    · subst h; exact le_max_left _ _
    · exact le_trans (le_foldr_max as a h) (le_max_right _ _)

theorem mem_lt_bincount_length {l : List ℕ} {a : ℕ} (h : a ∈ l) :
    a < (bincount l).length := by
  rw [bincount_length, if_neg (by simp [List.isEmpty_iff]; rintro rfl; simp at h)]
  exact Nat.lt_succ_of_le (le_foldr_max l a h)

theorem bincount_getD {l : List ℕ} {i : ℕ} (h : i < (bincount l).length) (d : ℕ) :
    (bincount l).getD i d = l.count i := by
  rw [bincount_length] at h
  rw [bincount, List.getD_eq_getElem?_getD, List.getElem?_map, List.getElem?_range h,
    Option.map_some', Option.getD_some]

theorem sum_map_range {M : Type} [AddCommMonoid M] (f : ℕ → M) (n : ℕ) :
    ((List.range n).map f).sum = ∑ i ∈ Finset.range n, f i := by
  induction n with
  | zero => simp
  | succ n ih =>
    rw [List.range_succ, List.map_append, List.sum_append, Finset.sum_range_succ, ih]
    simp

theorem sum_count_range (l : List ℕ) (B : ℕ) (h : ∀ a ∈ l, a < B) :
    ∑ i ∈ Finset.range B, l.count i = l.length := by
  induction l with
  | nil => simp
  | cons a as ih =>
    have ha : a ∈ Finset.range B := Finset.mem_range.mpr (h a (List.mem_cons_self a as))
    have hih := ih fun b hb => h b (List.mem_cons_of_mem a hb)
    simp only [List.count_cons, List.length_cons, beq_iff_eq]
    rw [Finset.sum_add_distrib, hih, Finset.sum_ite_eq (Finset.range B) a fun _ => 1,
      if_pos ha]

theorem precomps_length (m : BCModel) : m.precomps.length = m.nmet := by
  simp [BCModel.precomps]

theorem precomps_getD (m : BCModel) (i : ℕ) (h : i < m.nmet) :
    m.precomps.getD i [] = (List.range m.nmet).map fun j => m.gamma i j * m.ce_bulk i := by
  simp [BCModel.precomps, List.getD_eq_getElem?_getD, List.getElem?_map,
    List.getElem?_range h]

theorem precompAt_eq (m : BCModel) (i j : ℕ) (hi : i < m.nmet) (hj : j < m.nmet) :
    m.precompAt i j = m.gamma i j * m.ce_bulk i := by
  rw [BCModel.precompAt, precomps_getD m i hi]
  simp [List.getD_eq_getElem?_getD, List.getElem?_map, List.getElem?_range hj]

theorem npGet_of_nonneg {α : Type} (l : List α) (i : Int) (d : α) (h0 : 0 ≤ i)
    (h : i < (l.length : Int)) : npGet l i = some (l.getD i.toNat d) := by
  have hi : i = ((i.toNat : ℕ) : Int) := (Int.toNat_of_nonneg h0).symm
  rw [hi, npGet_nat l i.toNat d (by omega), Int.toNat_natCast]

theorem npGet2_precomps_valid (m : BCModel) (x y : Int) (hx0 : 0 ≤ x)
    (hx : x < (m.nmet : Int)) (hy0 : 0 ≤ y) (hy : y < (m.nmet : Int)) :
    npGet2 m.precomps x y = some (m.precompAt x.toNat y.toNat) := by
  have hxn : x.toNat < m.nmet := by omega
  have hyn : y.toNat < m.nmet := by omega
  have hrow : npGet m.precomps x = some (m.precomps.getD x.toNat []) :=
    npGet_of_nonneg m.precomps x [] hx0 (by rw [precomps_length]; omega)
  have hrowlen : (m.precomps.getD x.toNat []).length = m.nmet := by
    rw [precomps_getD m x.toNat hxn]; simp
  rw [npGet2, hrow, Option.bind_eq_bind, Option.some_bind,
    npGet_of_nonneg _ y 0 hy0 (by rw [hrowlen]; omega)]
  rfl

theorem cn_getD_eq_count (m : BCModel) (s : ℕ) (h : s ∈ m.a1) :
    m.cn.getD s 0 = m.a1.count s :=
  bincount_getD (mem_lt_bincount_length h) 0

/-- C1: for every model and every valid ordering, `calc_ce` returns the sum
over all directed bonds `k` of
`precomp[ordering[source_k], ordering[dest_k]] / sqrt(12 * CN[source_k])`
divided by the atom count, where `CN[source_k]` is the number of bonds
whose source is `source_k`. -/
theorem calc_ce_formula (m : BCModel) (o : List Int) (hwf : m.WF)
    (hlen : o.length = m.natoms)
    (hval : ∀ v ∈ o, 0 ≤ v ∧ v < (m.nmet : Int)) :
    m.calc_ce o = some ((m.bond_list.map fun b =>
      m.precompAt (o.getD b.1 0).toNat (o.getD b.2 0).toNat /
        Real.sqrt (12 * (m.a1.count b.1 : ℝ))).sum / (m.natoms : ℝ)) := by
  unfold BCModel.calc_ce
  rw [omap_eq_map _ (fun b : ℕ × ℕ =>
      m.precompAt (o.getD b.1 0).toNat (o.getD b.2 0).toNat /
        Real.sqrt (12 * (m.a1.count b.1 : ℝ))) m.bond_list ?_]
  · simp
  · intro b hb
    obtain ⟨hb1, hb2⟩ := hwf b hb
    have h1 : npGet o (b.1 : Int) = some (o.getD b.1 0) :=
      npGet_nat o b.1 0 (by omega)
    have h2 : npGet o (b.2 : Int) = some (o.getD b.2 0) :=
      npGet_nat o b.2 0 (by omega)
    have hm1 : o.getD b.1 0 ∈ o := by
      rw [List.getD_eq_getElem o 0 (by omega)]
      exact List.getElem_mem _
    have hm2 : o.getD b.2 0 ∈ o := by
      rw [List.getD_eq_getElem o 0 (by omega)]
      exact List.getElem_mem _
    obtain ⟨hv10, hv1⟩ := hval _ hm1
    obtain ⟨hv20, hv2⟩ := hval _ hm2
    have h3 := npGet2_precomps_valid m _ _ hv10 hv1 hv20 hv2
    have hcn : m.cn.getD b.1 0 = m.a1.count b.1 :=
      cn_getD_eq_count m b.1 (List.mem_map_of_mem Prod.fst hb)
    have hsq : ((m.cn.getD b.1 0 * 12 : ℕ) : ℝ) = 12 * (m.a1.count b.1 : ℝ) := by
      rw [hcn]; push_cast; ring
    simp only [h1, h2, Option.bind_eq_bind, Option.some_bind, h3, hsq]
    rfl

/-- Witness for C1 at the concrete star model and the ordering `[0,1,0,0]`. -/
theorem calc_ce_formula_w :
    starM.WF ∧ (starM.calc_ce [0, 1, 0, 0] = some ((starM.bond_list.map fun b =>
      starM.precompAt (([0, 1, 0, 0] : List Int).getD b.1 0).toNat
          (([0, 1, 0, 0] : List Int).getD b.2 0).toNat /
        Real.sqrt (12 * (starM.a1.count b.1 : ℝ))).sum / (starM.natoms : ℝ))) :=
  ⟨by decide, calc_ce_formula starM [0, 1, 0, 0] (by decide) rfl (by decide)⟩

/-! ### Concrete energies of the star model -/

theorem sqrt_36 : Real.sqrt (36 : ℝ) = 6 := by
  rw [show (36 : ℝ) = 6 ^ 2 by norm_num, Real.sqrt_sq (by norm_num)]

theorem starM_ce_0100 : starM.calc_ce [0, 1, 0, 0] = some 4 := by
  unfold BCModel.calc_ce starM
  norm_num [omap, npGet, npGet2, BCModel.precomps, BCModel.cn, BCModel.a1, bincount,
    List.range_succ, sqrt_36, List.get?]

theorem starM_ce_1000 : starM.calc_ce [1, 0, 0, 0] = some 5 := by
  unfold BCModel.calc_ce starM
  norm_num [omap, npGet, npGet2, BCModel.precomps, BCModel.cn, BCModel.a1, bincount,
    List.range_succ, sqrt_36, List.get?]

/-- C3: for every model and every ordered pair of metal codes `(i, j)`
(including `i = j`), the precomputed matrix entry is
`gamma(metal_i, metal_j) * bulk_cohesive_energy(metal_i)`; the matrix is
asymmetric in general — witnessed by a model whose `gamma` is symmetric
but whose bulk cohesive energies differ. -/
theorem precomps_entries :
    (∀ (m : BCModel) (i j : ℕ), i < m.nmet → j < m.nmet →
      m.precompAt i j = m.gamma i j * m.ce_bulk i) ∧
    asymM.precompAt 0 1 ≠ asymM.precompAt 1 0 := by
  constructor
  · exact fun m i j hi hj => precompAt_eq m i j hi hj
  · rw [precompAt_eq asymM 0 1 (by norm_num [asymM]) (by norm_num [asymM]),
      precompAt_eq asymM 1 0 (by norm_num [asymM]) (by norm_num [asymM])]
    norm_num [asymM]

/-- Witness for C3 at the concrete asymmetric model and the pair `(0, 1)`. -/
theorem precomps_entries_w :
    0 < asymM.nmet ∧ 1 < asymM.nmet ∧
      asymM.precompAt 0 1 = asymM.gamma 0 1 * asymM.ce_bulk 0 :=
  ⟨by norm_num [asymM], by norm_num [asymM],
    precomps_entries.1 asymM 0 1 (by norm_num [asymM]) (by norm_num [asymM])⟩

/-! ### Success conditions of the evaluators -/

theorem npGet_mem {α : Type} {l : List α} {i : Int} {a : α} (h : npGet l i = some a) :
    a ∈ l := by
  unfold npGet at h
  by_cases h0 : 0 ≤ i
  · rw [if_pos h0] at h
    exact List.get?_mem h
  · rw [if_neg h0] at h
    by_cases hle : (-i).toNat ≤ l.length
    · rw [if_pos hle] at h
      exact List.get?_mem h
    · rw [if_neg hle] at h
      exact absurd h (by simp)

theorem precomps_rows (m : BCModel) : ∀ row ∈ m.precomps, row.length = m.nmet := by
  intro row hrow
  rw [BCModel.precomps] at hrow
  obtain ⟨i, _, rfl⟩ := List.mem_map.mp hrow
  simp

theorem calc_ce_some (m : BCModel) (o : List Int)
    (hb : ∀ b ∈ m.bond_list, b.1 < o.length ∧ b.2 < o.length)
    (hval : ∀ v ∈ o, -(m.nmet : Int) ≤ v ∧ v < (m.nmet : Int)) :
    ∃ r, m.calc_ce o = some r := by
  unfold BCModel.calc_ce
  have hall : ∀ b ∈ m.bond_list, ((fun b : ℕ × ℕ => do
      let x ← npGet o (b.1 : Int)
      let y ← npGet o (b.2 : Int)
      let p ← npGet2 m.precomps x y
      pure (p / Real.sqrt ((m.cn.getD b.1 0 * 12 : ℕ) : ℝ))) b).isSome := by
    intro b hbmem
    obtain ⟨hb1, hb2⟩ := hb b hbmem
    have h1 : ∃ v1, npGet o (b.1 : Int) = some v1 :=
      Option.isSome_iff_exists.mp (by rw [npGet_isSome_iff]; omega)
    have h2 : ∃ v2, npGet o (b.2 : Int) = some v2 :=
      Option.isSome_iff_exists.mp (by rw [npGet_isSome_iff]; omega)
    obtain ⟨v1, hv1⟩ := h1
    obtain ⟨v2, hv2⟩ := h2
    obtain ⟨hval1, hval1b⟩ := hval v1 (npGet_mem hv1)
    obtain ⟨hval2, hval2b⟩ := hval v2 (npGet_mem hv2)
    have hrow : ∃ row, npGet m.precomps v1 = some row :=
      Option.isSome_iff_exists.mp (by rw [npGet_isSome_iff, precomps_length]; omega)
    obtain ⟨row, hrowe⟩ := hrow
    have hrlen : row.length = m.nmet := precomps_rows m row (npGet_mem hrowe)
    have hentry : ∃ p, npGet row v2 = some p :=
      Option.isSome_iff_exists.mp (by rw [npGet_isSome_iff, hrlen]; omega)
    obtain ⟨p, hp⟩ := hentry
    simp [hv1, hv2, npGet2, hrowe, hp]
  obtain ⟨bs, hbs⟩ := omap_isSome _ m.bond_list hall
  exact ⟨bs.sum / m.natoms, by rw [hbs, Option.map_some']⟩

theorem foldr_max_lt {B : ℕ} : ∀ {l : List ℕ}, (∀ a ∈ l, a < B) → l ≠ [] →
    l.foldr max 0 < B
  | [a], h, _ => by simpa using h a (by simp)
  | a :: b :: bs, h, _ => by
    have hrec : (b :: bs).foldr max 0 < B :=
      foldr_max_lt (fun c hc => h c (List.mem_cons_of_mem a hc)) (by simp)
    have ha : a < B := h a (List.mem_cons_self a _)
    simpa using max_lt ha hrec

theorem bincount_length_le {l : List ℕ} {B : ℕ} (h : ∀ a ∈ l, a < B) :
    (bincount l).length ≤ B := by
  rw [bincount_length]
  by_cases hl : l.isEmpty
  · simp [hl]
  · rw [if_neg hl]
    have : l ≠ [] := by simpa [List.isEmpty_iff] using hl
    exact Nat.succ_le_of_lt (foldr_max_lt h this)

theorem bincount_sum (l : List ℕ) : (bincount l).sum = l.length := by
  have h1 : (bincount l).sum = ∑ i ∈ Finset.range (bincount l).length, l.count i := by
    conv_lhs => rw [bincount]
    rw [sum_map_range]
    congr 1
    rw [bincount_length]
  rw [h1, sum_count_range l _ fun a ha => mem_lt_bincount_length ha]

/-- C4: evaluating `calc_ee` on the ordering that assigns one fixed metal
code `t` to every atom gives exactly `0`: the tested nanoparticle is its
own pure reference, so the subtraction cancels. -/
theorem calc_ee_pure_zero (m : BCModel) (t : ℕ) (hwf : m.WF) (ht : t < m.nmet) :
    m.calc_ee (List.replicate m.natoms ((t : ℕ) : Int)) = some 0 := by
  have hmap : (List.replicate m.natoms ((t : ℕ) : Int)).map Int.toNat
      = List.replicate m.natoms t := by
    rw [List.map_replicate]
    simp
  have hneg : ((List.replicate m.natoms ((t : ℕ) : Int)).any
      fun v => decide (v < 0)) = false := by
    apply List.any_eq_false.mpr
    intro v hv
    rw [List.eq_of_mem_replicate hv]
    simp
  have hlen_le : (bincount (List.replicate m.natoms t)).length ≤ m.nmet :=
    bincount_length_le fun a ha => by rw [List.eq_of_mem_replicate ha]; exact ht
  have hbonds : ∀ b ∈ m.bond_list,
      b.1 < (List.replicate m.natoms ((t : ℕ) : Int)).length ∧
      b.2 < (List.replicate m.natoms ((t : ℕ) : Int)).length := by
    intro b hb
    rw [List.length_replicate]
    exact hwf b hb
  have hvals : ∀ v ∈ List.replicate m.natoms ((t : ℕ) : Int),
      -(m.nmet : Int) ≤ v ∧ v < (m.nmet : Int) := by
    intro v hv
    rw [List.eq_of_mem_replicate hv]
    omega
  obtain ⟨e0, he0⟩ := calc_ce_some m _ hbonds hvals
  have hg : ∀ ele ∈ List.range m.nmet,
      m.calc_ce (List.replicate m.natoms ((ele : ℕ) : Int))
        = some ((m.calc_ce (List.replicate m.natoms ((ele : ℕ) : Int))).getD 0) := by
    intro ele hele
    have hele2 : ele < m.nmet := List.mem_range.mp hele
    obtain ⟨r, hr⟩ := calc_ce_some m (List.replicate m.natoms ((ele : ℕ) : Int))
      (by intro b hb; rw [List.length_replicate]; exact hwf b hb)
      (by intro v hv; rw [List.eq_of_mem_replicate hv]; omega)
    rw [hr, Option.getD_some]
  unfold BCModel.calc_ee
  rw [hmap, hneg, if_neg (by simp), if_neg (not_lt.mpr hlen_le), he0]
  dsimp only
  rw [ofold_sub _ (fun ele => (m.calc_ce (List.replicate m.natoms ((ele : ℕ) : Int))).getD 0)
      _ (List.range m.nmet) e0 hg, sum_map_range]
  by_cases hn : m.natoms = 0
  · have hbl : m.bond_list = [] := by
      rw [List.eq_nil_iff_forall_not_mem]
      intro b hb
      have := (hwf b hb).1
      omega
    have hce0 : m.calc_ce (List.replicate m.natoms ((t : ℕ) : Int)) = some 0 := by
      unfold BCModel.calc_ce
      rw [hbl]
      simp [omap]
    have he00 : e0 = 0 := by
      rw [he0] at hce0
      exact (Option.some.inj hce0)
    have hzero : ∀ ele ∈ Finset.range m.nmet,
        ((m.calc_ce (List.replicate m.natoms ((ele : ℕ) : Int))).getD 0) *
          (if ele < (bincount (List.replicate m.natoms t)).length
           then ((bincount (List.replicate m.natoms t)).getD ele 0 : ℝ) /
             ((bincount (List.replicate m.natoms t)).sum : ℝ)
           else 0) = 0 := by
      intro ele _
      have : (bincount (List.replicate m.natoms t)).length = 0 := by
        rw [hn]
        simp [bincount]
      rw [this]
      simp
    rw [Finset.sum_congr rfl hzero]
    simp [he00]
  · have htmem : t ∈ List.replicate m.natoms t := List.mem_replicate.mpr ⟨hn, rfl⟩
    have htlen : t < (bincount (List.replicate m.natoms t)).length :=
      mem_lt_bincount_length htmem
    have hsum : (bincount (List.replicate m.natoms t)).sum = m.natoms := by
      rw [bincount_sum, List.length_replicate]
    have hsingle : ∑ ele ∈ Finset.range m.nmet,
        ((m.calc_ce (List.replicate m.natoms ((ele : ℕ) : Int))).getD 0) *
          (if ele < (bincount (List.replicate m.natoms t)).length
           then ((bincount (List.replicate m.natoms t)).getD ele 0 : ℝ) /
             ((bincount (List.replicate m.natoms t)).sum : ℝ)
           else 0)
        = ((m.calc_ce (List.replicate m.natoms ((t : ℕ) : Int))).getD 0) *
          (if t < (bincount (List.replicate m.natoms t)).length
           then ((bincount (List.replicate m.natoms t)).getD t 0 : ℝ) /
             ((bincount (List.replicate m.natoms t)).sum : ℝ)
           else 0) := by
      apply Finset.sum_eq_single t
      · intro ele _ hne
        by_cases hel : ele < (bincount (List.replicate m.natoms t)).length
        · rw [if_pos hel, bincount_getD hel, List.count_replicate]
          have hcz : (if t == ele then m.natoms else 0) = 0 := by simp [Ne.symm hne]
          rw [hcz]
          simp
        · rw [if_neg hel]
          simp
      · intro habs
        exact absurd (Finset.mem_range.mpr ht) habs
    rw [hsingle, if_pos htlen, bincount_getD htlen, List.count_replicate, hsum]
    have htt : (if t == t then m.natoms else 0) = m.natoms := by simp
    rw [htt, he0, Option.getD_some, div_self (by exact_mod_cast hn : (m.natoms : ℝ) ≠ 0),
      mul_one, sub_self]

/-- Witness for C4 at the star model and metal code `0`. -/
theorem calc_ee_pure_zero_w :
    starM.WF ∧ 0 < starM.nmet ∧
      starM.calc_ee (List.replicate starM.natoms ((0 : ℕ) : Int)) = some 0 :=
  ⟨by decide, by norm_num [starM],
    calc_ee_pure_zero starM 0 (by decide) (by norm_num [starM])⟩

/-! ### Entropy of mixing -/

theorem kB_pos : 0 < kB := by
  unfold kB
  norm_num

theorem filter_xlogx_sum (l : List ℝ) :
    ((l.filter fun v => @decide (v ≠ 0) (Classical.propDecidable _)).map
      fun v => v * Real.log v).sum = (l.map fun v => v * Real.log v).sum := by
  induction l with
  | nil => rfl
  | cons a as ih =>
    by_cases ha : a = 0
    · subst ha
      rw [List.filter_cons]
      simp only [decide_eq_true_eq, ne_eq, not_true_eq_false, if_false, ih,
        List.map_cons, List.sum_cons, zero_mul, zero_add]
    · rw [List.filter_cons]
      simp only [decide_eq_true_eq, ne_eq, ha, not_false_eq_true, if_true,
        List.map_cons, List.sum_cons, ih]

theorem calc_smix_eq (m : BCModel) (o : List Int) (hpos : ∀ v ∈ o, 0 ≤ v) :
    m.calc_smix o = some (-kB *
      ∑ i ∈ Finset.range (bincount (o.map Int.toNat)).length,
        (((o.map Int.toNat).count i : ℝ) / (o.length : ℝ)) *
          Real.log (((o.map Int.toNat).count i : ℝ) / (o.length : ℝ))) := by
  unfold BCModel.calc_smix
  rw [if_neg (by
    simp only [List.any_eq_true, not_exists]
    intro v
    rintro ⟨hv, habs⟩
    exact absurd (of_decide_eq_true habs) (not_lt.mpr (hpos v hv)))]
  congr 1
  rw [filter_xlogx_sum]
  conv_lhs => rw [bincount]
  rw [List.map_map, List.map_map, sum_map_range, ← bincount_length]
  rfl

theorem count_toNat {o : List Int} (hpos : ∀ v ∈ o, 0 ≤ v) (t : ℕ) :
    (o.map Int.toNat).count t = o.count ((t : ℕ) : Int) := by
  induction o with
  | nil => rfl
  | cons a as ih =>
    have ha := hpos a (List.mem_cons_self a as)
    have hi := ih fun v hv => hpos v (List.mem_cons_of_mem a hv)
    simp only [List.map_cons, List.count_cons, hi]
    congr 1
    by_cases h : a = (t : Int)
    · subst h
      simp
    · have h2 : t ≠ a.toNat := by omega
      have h3 : ¬(a.toNat = t) := fun hh => h2 hh.symm
      simp only [beq_iff_eq, h3, h, if_false]

/-- C5: for every valid non-empty ordering, `calc_smix` returns
`-kB * sum over metal codes t with nonzero fraction of x_t * ln x_t`
(zero-fraction codes excluded); the value is nonnegative, vanishing
exactly when one single metal code occupies all atoms. -/
theorem calc_smix_spec (m : BCModel) (o : List Int) (hne : o ≠ [])
    (hval : ∀ v ∈ o, 0 ≤ v ∧ v < (m.nmet : Int)) :
    ∃ s, m.calc_smix o = some s ∧
      s = -kB * ∑ t ∈ (Finset.range m.nmet).filter (fun t => ((t : ℕ) : Int) ∈ o),
        ((o.count ((t : ℕ) : Int) : ℝ) / (o.length : ℝ)) *
          Real.log ((o.count ((t : ℕ) : Int) : ℝ) / (o.length : ℝ)) ∧
      0 ≤ s ∧ (s = 0 ↔ ∃ u : Int, ∀ v ∈ o, v = u) := by
  have hpos : ∀ v ∈ o, 0 ≤ v := fun v hv => (hval v hv).1
  have hnlen : 0 < o.length := List.length_pos.mpr hne
  have hnR : (0 : ℝ) < (o.length : ℝ) := by exact_mod_cast hnlen
  have hLlen : (o.map Int.toNat).length = o.length := List.length_map o Int.toNat
  have hLmem : ∀ a ∈ o.map Int.toNat, a < m.nmet := by
    intro a ha
    obtain ⟨v, hv, rfl⟩ := List.mem_map.mp ha
    have := hval v hv
    omega
  have hBle : (bincount (o.map Int.toNat)).length ≤ m.nmet := bincount_length_le hLmem
  -- the summand, as a function of the metal code
  set f : ℕ → ℝ := fun i =>
    (((o.map Int.toNat).count i : ℝ) / (o.length : ℝ)) *
      Real.log (((o.map Int.toNat).count i : ℝ) / (o.length : ℝ)) with hf
  have hf_zero : ∀ i, (o.map Int.toNat).count i = 0 → f i = 0 := by
    intro i hi
    rw [hf]
    simp [hi]
  have hf_nonpos : ∀ i, f i ≤ 0 := by
    intro i
    have hx0 : (0 : ℝ) ≤ ((o.map Int.toNat).count i : ℝ) / (o.length : ℝ) :=
      div_nonneg (by positivity) (le_of_lt hnR)
    have hx1 : ((o.map Int.toNat).count i : ℝ) / (o.length : ℝ) ≤ 1 := by
      rw [div_le_one hnR]
      exact_mod_cast (hLlen ▸ List.count_le_length i (o.map Int.toNat))
    exact mul_nonpos_iff.mpr (Or.inl ⟨hx0, Real.log_nonpos hx0 hx1⟩)
  have hsum_ext : ∑ i ∈ Finset.range (bincount (o.map Int.toNat)).length, f i
      = ∑ i ∈ Finset.range m.nmet, f i := by
    apply Finset.sum_subset (Finset.range_subset.mpr hBle)
    intro i _ hiB
    apply hf_zero
    rw [List.count_eq_zero]
    intro hmem
    exact hiB (Finset.mem_range.mpr (mem_lt_bincount_length hmem))
  have hsum_filter : ∑ i ∈ Finset.range m.nmet, f i
      = ∑ t ∈ (Finset.range m.nmet).filter (fun t => ((t : ℕ) : Int) ∈ o), f t := by
    symm
    apply Finset.sum_filter_of_ne
    intro t _ hft
    by_contra hnot
    apply hft
    apply hf_zero
    rw [count_toNat hpos, List.count_eq_zero]
    exact hnot
  have hcount_conv : ∀ t, f t = ((o.count ((t : ℕ) : Int) : ℝ) / (o.length : ℝ)) *
      Real.log ((o.count ((t : ℕ) : Int) : ℝ) / (o.length : ℝ)) := by
    intro t
    rw [hf]
    dsimp only
    rw [count_toNat hpos]
  refine ⟨-kB * ∑ i ∈ Finset.range (bincount (o.map Int.toNat)).length, f i,
    calc_smix_eq m o hpos, ?_, ?_, ?_⟩
  · rw [hsum_ext, hsum_filter]
    exact congrArg _ (Finset.sum_congr rfl fun t _ => hcount_conv t)
  · have hS : ∑ i ∈ Finset.range (bincount (o.map Int.toNat)).length, f i ≤ 0 :=
      Finset.sum_nonpos fun i _ => hf_nonpos i
    nlinarith [kB_pos]
  · have hkB : kB ≠ 0 := ne_of_gt kB_pos
    rw [neg_mul, neg_eq_zero, mul_eq_zero, or_iff_right hkB]
    have hall_iff : ∑ i ∈ Finset.range (bincount (o.map Int.toNat)).length, f i = 0
        ↔ ∀ i ∈ Finset.range (bincount (o.map Int.toNat)).length, f i = 0 := by
      rw [← neg_eq_zero, ← Finset.sum_neg_distrib]
      rw [Finset.sum_eq_zero_iff_of_nonneg fun i _ => neg_nonneg.mpr (hf_nonpos i)]
      constructor
      · intro h i hi
        have := h i hi
        linarith
      · intro h i hi
        rw [h i hi]
        exact neg_zero
    rw [hall_iff]
    constructor
    · intro hall
      obtain ⟨w, hw⟩ := List.exists_mem_of_ne_nil o hne
      have hwt : w.toNat ∈ o.map Int.toNat := List.mem_map_of_mem Int.toNat hw
      have hwB : w.toNat < (bincount (o.map Int.toNat)).length :=
        mem_lt_bincount_length hwt
      have hfw := hall w.toNat (Finset.mem_range.mpr hwB)
      rw [hf] at hfw
      have hcpos : 0 < (o.map Int.toNat).count w.toNat :=
        List.count_pos_iff.mpr hwt
      have hxpos : (0 : ℝ) < ((o.map Int.toNat).count w.toNat : ℝ) / (o.length : ℝ) :=
        div_pos (by exact_mod_cast hcpos) hnR
      rcases mul_eq_zero.mp hfw with hx | hlog
      · exact absurd hx (ne_of_gt hxpos)
      · have hx1 : ((o.map Int.toNat).count w.toNat : ℝ) / (o.length : ℝ) = 1 := by
          rcases Real.log_eq_zero.mp hlog with h | h | h
          · exact absurd h (ne_of_gt hxpos)
          · exact h
          · linarith
        have hcn : (o.map Int.toNat).count w.toNat = o.length := by
          have := (div_eq_one_iff_eq (ne_of_gt hnR)).mp hx1
          exact_mod_cast this
        refine ⟨(w.toNat : Int), ?_⟩
        intro v hv
        have hvt : w.toNat = v.toNat := by
          have hcl : ∀ b ∈ o.map Int.toNat, w.toNat = b :=
            List.count_eq_length.mp (by rw [hLlen]; exact hcn)
          exact hcl v.toNat (List.mem_map_of_mem Int.toNat hv)
        have := hpos v hv
        have := hpos w hw
        omega
    · rintro ⟨u, hu⟩
      intro i hi
      obtain ⟨w, hw⟩ := List.exists_mem_of_ne_nil o hne
      have hwu : w = u := hu w hw
      have hu0 : 0 ≤ u := hwu ▸ hpos w hw
      by_cases hiu : i = u.toNat
      · subst hiu
        have hcn : (o.map Int.toNat).count u.toNat = o.length := by
          rw [← hLlen]
          apply List.count_eq_length.mpr
          intro b hb
          obtain ⟨v, hv, rfl⟩ := List.mem_map.mp hb
          rw [hu v hv]
        rw [hf]
        dsimp only
        rw [hcn, div_self (ne_of_gt hnR), Real.log_one, mul_zero]
      · have hcz : (o.map Int.toNat).count i = 0 := by
          rw [List.count_eq_zero]
          intro hmem
          obtain ⟨v, hv, hvi⟩ := List.mem_map.mp hmem
          have := hu v hv
          omega
        exact hf_zero i hcz

/-- Witness for C5 at the dimer model and the 50/50 ordering `[0, 1]`. -/
theorem calc_smix_spec_w :
    (([0, 1] : List Int) ≠ []) ∧
    ∃ s, dimM.calc_smix [0, 1] = some s ∧
      s = -kB * ∑ t ∈ (Finset.range dimM.nmet).filter
          (fun t => ((t : ℕ) : Int) ∈ ([0, 1] : List Int)),
        ((([0, 1] : List Int).count ((t : ℕ) : Int) : ℝ) / (([0, 1] : List Int).length : ℝ)) *
          Real.log ((([0, 1] : List Int).count ((t : ℕ) : Int) : ℝ) /
            (([0, 1] : List Int).length : ℝ)) ∧
      0 ≤ s ∧ (s = 0 ↔ ∃ u : Int, ∀ v ∈ ([0, 1] : List Int), v = u) :=
  ⟨by decide, calc_smix_spec dimM [0, 1] (by decide) (by decide)⟩

/-! ### The metropolis loop -/

theorem metStep_shape (m : BCModel) (rng : ℕ → ℕ × ℕ × ℝ) (st : MetState) (step : ℕ)
    (st' : MetState) (h : metStep m rng st step = some st') :
    st'.prevE = st.prevE ∧
    ∃ e, m.calc_ce (listSwap st.ord (rng step).1 (rng step).2.1) = some e ∧
      (((rng step).2.2 < e / st.prevE →
          st'.ord = listSwap st.ord (rng step).1 (rng step).2.1 ∧
          st'.hist = st.hist ++ [e]) ∧
       (¬ (rng step).2.2 < e / st.prevE →
          st'.ord = st.ord ∧ st'.hist = st.hist ++ [st.prevE])) := by
  rw [metStep] at h
  cases hce : m.calc_ce (listSwap st.ord (rng step).1 (rng step).2.1) with
  | none =>
    rw [hce] at h
    exact absurd h (by simp)
  | some e =>
    rw [hce, Option.map_some'] at h
    by_cases hcond : (rng step).2.2 < e / st.prevE
    · rw [if_pos hcond] at h
      have hst := Option.some.inj h
      subst hst
      exact ⟨rfl, e, rfl, fun _ => ⟨rfl, rfl⟩, fun hc => absurd hcond hc⟩
    · rw [if_neg hcond] at h
      have hst := Option.some.inj h
      subst hst
      exact ⟨rfl, e, rfl, fun hc => absurd hc hcond, fun _ => ⟨rfl, rfl⟩⟩

/-- C2 (corrected): a candidate step is accepted exactly when
`candidate_energy / prev_energy` exceeds the uniform draw, and a rejected
step records `prev_energy`; but `prev_energy` is never reassigned inside
the loop, so throughout the whole run it stays the cohesive energy of the
*initial* ordering — not the energy of the current (last accepted)
state. -/
theorem metropolis_acceptance (m : BCModel) (rng : ℕ → ℕ × ℕ × ℝ) :
    (∀ (st : MetState) (step : ℕ) (st' : MetState), metStep m rng st step = some st' →
      st'.prevE = st.prevE ∧
      ∃ e, m.calc_ce (listSwap st.ord (rng step).1 (rng step).2.1) = some e ∧
        (((rng step).2.2 < e / st.prevE →
            st'.ord = listSwap st.ord (rng step).1 (rng step).2.1 ∧
            st'.hist = st.hist ++ [e]) ∧
         (¬ (rng step).2.2 < e / st.prevE →
            st'.ord = st.ord ∧ st'.hist = st.hist ++ [st.prevE]))) ∧
    (∀ (o : List Int) (L : List ℕ) (e0 : ℝ) (st' : MetState),
      m.calc_ce o = some e0 →
      ofold (metStep m rng) L ⟨o, o, e0, e0, [e0]⟩ = some st' →
      st'.prevE = e0) := by
  constructor
  · exact fun st step st' h => metStep_shape m rng st step st' h
  · intro o L e0 st' _ hfold
    exact ofold_invariant (metStep m rng) (fun st => st.prevE = e0)
      (fun s a s' hP hs => (metStep_shape m rng s a s' hs).1.trans hP) L _ st' rfl hfold

theorem metStep_eval1 : metStep starM rngA ⟨[0, 1, 0, 0], [0, 1, 0, 0], 4, 4, [4]⟩ 1
    = some ⟨[1, 0, 0, 0], [0, 1, 0, 0], 4, 4, [4, 5]⟩ := by
  rw [metStep]
  rw [show listSwap (⟨[0, 1, 0, 0], [0, 1, 0, 0], 4, 4, [4]⟩ : MetState).ord
      (rngA 1).1 (rngA 1).2.1 = [1, 0, 0, 0] from by decide, starM_ce_1000,
    Option.map_some']
  norm_num [rngA]

/-- Witness for C2: a concrete accepted step of the star model, to which
the characterization applies. -/
theorem metropolis_acceptance_w :
    metStep starM rngA ⟨[0, 1, 0, 0], [0, 1, 0, 0], 4, 4, [4]⟩ 1
      = some ⟨[1, 0, 0, 0], [0, 1, 0, 0], 4, 4, [4, 5]⟩ ∧
    (⟨[1, 0, 0, 0], [0, 1, 0, 0], 4, 4, [4, 5]⟩ : MetState).prevE
      = (⟨[0, 1, 0, 0], [0, 1, 0, 0], 4, 4, [4]⟩ : MetState).prevE :=
  ⟨metStep_eval1,
    ((metropolis_acceptance starM rngA).1 _ 1 _ metStep_eval1).1⟩

theorem metStep_eval2 : metStep starM rngB ⟨[0, 1, 0, 0], [0, 1, 0, 0], 4, 4, [4]⟩ 1
    = some ⟨[1, 0, 0, 0], [0, 1, 0, 0], 4, 4, [4, 5]⟩ := by
  rw [metStep]
  rw [show listSwap (⟨[0, 1, 0, 0], [0, 1, 0, 0], 4, 4, [4]⟩ : MetState).ord
      (rngB 1).1 (rngB 1).2.1 = [1, 0, 0, 0] from by norm_num [rngB, listSwap],
    starM_ce_1000, Option.map_some']
  norm_num [rngB]

theorem metStep_eval3 : metStep starM rngB ⟨[1, 0, 0, 0], [0, 1, 0, 0], 4, 4, [4, 5]⟩ 2
    = some ⟨[0, 1, 0, 0], [0, 1, 0, 0], 4, 4, [4, 5, 4]⟩ := by
  rw [metStep]
  rw [show listSwap (⟨[1, 0, 0, 0], [0, 1, 0, 0], 4, 4, [4, 5]⟩ : MetState).ord
      (rngB 2).1 (rngB 2).2.1 = [0, 1, 0, 0] from by norm_num [rngB, listSwap],
    starM_ce_0100, Option.map_some']
  norm_num [rngB]

theorem metropolis_eval_3step :
    starM.metropolis [0, 1, 0, 0] 3 rngB = some ([0, 1, 0, 0], 4, [4, 5, 4]) := by
  rw [BCModel.metropolis, if_neg (by norm_num), starM_ce_0100]
  dsimp only
  rw [show List.range' 1 (3 - 1) = [1, 2] from rfl]
  simp only [ofold, metStep_eval2, metStep_eval3]

/-- Counterexample for C2: in this 3-step run the step-1 swap is accepted
with candidate energy 5 (the initial energy is 4), so the claim's
`E_prev` — the energy of the last accepted state — is 5 at step 2.  The
step-2 candidate (the swap back) has energy 4, its claim-side acceptance
test `4 / 5 > 0.99` fails, and the claim therefore requires the step to
be rejected with `E_prev = 5` recorded, i.e. trajectory `[4, 5, 5]`.  The
code instead divides by the never-updated initial energy (`4 / 4 > 0.99`
accepts) and records `[4, 5, 4]`. -/
theorem metropolis_prev_cex :
    starM.metropolis [0, 1, 0, 0] 3 rngB = some ([0, 1, 0, 0], 4, [4, 5, 4]) ∧
    starM.calc_ce [1, 0, 0, 0] = some 5 ∧
    starM.calc_ce [0, 1, 0, 0] = some 4 ∧
    ([4, 5, 4] : List ℝ) ≠ [4, 5, 5] :=
  ⟨metropolis_eval_3step, starM_ce_1000, starM_ce_0100, by norm_num⟩

theorem metStep_hist (m : BCModel) (rng : ℕ → ℕ × ℕ × ℝ) (st : MetState) (step : ℕ)
    (st' : MetState) (h : metStep m rng st step = some st') :
    ∃ v, st'.hist = st.hist ++ [v] := by
  obtain ⟨-, e, -, hA, hR⟩ := metStep_shape m rng st step st' h
  by_cases hc : (rng step).2.2 < e / st.prevE
  · exact ⟨e, (hA hc).2⟩
  · exact ⟨st.prevE, (hR hc).2⟩

theorem ofold_metStep_hist (m : BCModel) (rng : ℕ → ℕ × ℕ × ℝ) :
    ∀ (L : List ℕ) (st st' : MetState), ofold (metStep m rng) L st = some st' →
      ∃ ext : List ℝ, st'.hist = st.hist ++ ext ∧ ext.length = L.length
  | [], st, st', h => by
    have hst := Option.some.inj h
    subst hst
    exact ⟨[], by simp, rfl⟩
  | a :: as, st, st', h => by
    simp only [ofold] at h
    cases hfa : metStep m rng st a with
    | none =>
      rw [hfa] at h
      exact absurd h (by simp)
    | some st1 =>
      rw [hfa] at h
      obtain ⟨v, hv⟩ := metStep_hist m rng st a st1 hfa
      obtain ⟨ext, hext, hlen⟩ := ofold_metStep_hist m rng as st1 st' h
      refine ⟨v :: ext, ?_, by simp [hlen]⟩
      rw [hext, hv, List.append_assoc]
      rfl

/-- C6 (corrected): with `num_steps = n ≥ 1` the loop runs
`range(1, n)`, i.e. performs `n - 1` (not `n`) swap transitions; the
trajectory has length `n` but its entry 0 is the *initial* cohesive
energy, not a transition record, and for `n = 1` the call returns the
input ordering, its energy, and the singleton trajectory untouched by any
swap; the initial state is current = best = input with
`best_energy = calc_ce(input)`. -/
theorem metropolis_shape (m : BCModel) (o : List Int) (n : ℕ) (rng : ℕ → ℕ × ℕ × ℝ)
    (r : List Int × ℝ × List ℝ) (hn : 1 ≤ n) (h : m.metropolis o n rng = some r) :
    r.2.2.length = n ∧ r.2.2.head? = m.calc_ce o ∧
      (n = 1 → ∃ e0, m.calc_ce o = some e0 ∧ r = (o, e0, [e0])) := by
  rw [BCModel.metropolis, if_neg (by omega)] at h
  cases hce : m.calc_ce o with
  | none =>
    rw [hce] at h
    exact absurd h (by simp)
  | some e0 =>
    rw [hce] at h
    dsimp only at h
    cases hfold : ofold (metStep m rng) (List.range' 1 (n - 1)) ⟨o, o, e0, e0, [e0]⟩ with
    | none =>
      rw [hfold] at h
      exact absurd h (by simp)
    | some st =>
      rw [hfold] at h
      have hr := (Option.some.inj h).symm
      obtain ⟨ext, hext, hlen⟩ := ofold_metStep_hist m rng _ _ _ hfold
      rw [List.length_range'] at hlen
      refine ⟨?_, ?_, ?_⟩
      · rw [hr]
        dsimp only
        rw [hext]
        simp [hlen]
        omega
      · rw [hr]
        dsimp only
        rw [hext]
        simp
      · intro hn1
        subst hn1
        rw [show List.range' 1 (1 - 1) = [] from rfl] at hfold
        have hst := Option.some.inj hfold
        subst hst
        exact ⟨e0, rfl, by rw [hr]⟩

theorem metropolis_eval_1step :
    starM.metropolis [0, 1, 0, 0] 1 rngA = some ([0, 1, 0, 0], 4, [4]) := by
  rw [BCModel.metropolis, if_neg (by norm_num), starM_ce_0100]
  rfl

/-- Counterexample for C6: with `num_steps = 1` and a random stream whose
first proposal (swap indices 0 and 1, draw 0) the claim requires one
accepted transition recording the candidate energy 5, the code performs
zero transitions (`range(1, 1)` is empty) and returns the untouched input
with trajectory `[4]`. -/
theorem metropolis_steps_cex :
    starM.metropolis [0, 1, 0, 0] 1 rngA = some ([0, 1, 0, 0], 4, [4]) ∧
    starM.calc_ce (listSwap [0, 1, 0, 0] (rngA 1).1 (rngA 1).2.1) = some 5 ∧
    ((4 : ℝ) ≠ 5) :=
  ⟨metropolis_eval_1step,
    by rw [show listSwap [0, 1, 0, 0] (rngA 1).1 (rngA 1).2.1 = [1, 0, 0, 0] from by decide]
       exact starM_ce_1000,
    by norm_num⟩

/-- Witness for C6 at the one-step run of the star model. -/
theorem metropolis_shape_w :
    (1 : ℕ) ≤ 1 ∧
    (([0, 1, 0, 0], 4, [4]) : List Int × ℝ × List ℝ).2.2.length = 1 ∧
    (([0, 1, 0, 0], 4, [4]) : List Int × ℝ × List ℝ).2.2.head?
      = starM.calc_ce [0, 1, 0, 0] ∧
    ((1 : ℕ) = 1 → ∃ e0, starM.calc_ce [0, 1, 0, 0] = some e0 ∧
      (([0, 1, 0, 0], 4, [4]) : List Int × ℝ × List ℝ) = ([0, 1, 0, 0], e0, [e0])) :=
  ⟨le_refl 1, metropolis_shape starM [0, 1, 0, 0] 1 rngA ([0, 1, 0, 0], 4, [4])
    (le_refl 1) metropolis_eval_1step⟩

/-! ### Input validation behavior of the evaluators -/

/-- Counterexample for C7: none of these three invalid inputs raises.
`calc_ce` accepts the ordering `[-1, -1]` (values outside `[0, M-1]`,
resolved by numpy wraparound), `calc_smix` accepts `[5, 5]` (values far
above `M - 1`, since `np.bincount` only rejects negatives), and `calc_ce`
accepts an ordering longer than the atom count. -/
theorem calc_invalid_cex :
    ((-1 : Int) < 0 ∧ ∃ r, dimM.calc_ce [-1, -1] = some r) ∧
    ((dimM.nmet : Int) ≤ 5 ∧ ∃ s, dimM.calc_smix [5, 5] = some s) ∧
    (([0, 0, 0] : List Int).length ≠ dimM.natoms ∧
      ∃ r, dimM.calc_ce [0, 0, 0] = some r) :=
  ⟨⟨by norm_num, calc_ce_some dimM [-1, -1] (by decide) (by decide)⟩,
   ⟨by norm_num [dimM], ⟨_, calc_smix_eq dimM [5, 5] (by decide)⟩⟩,
   ⟨by norm_num [dimM], calc_ce_some dimM [0, 0, 0] (by decide) (by decide)⟩⟩

/-- C7 (corrected): input validation is partial.  `calc_smix` returns
normally on every ordering with nonnegative values, whatever their range
or length (only negative values raise, in `np.bincount`); `calc_ce`
returns normally whenever the ordering covers all bond indices (any
length at least that, including lengths above the atom count) and its
values lie in `[-M, M-1]` — negative values index the coefficient matrix
from the end instead of raising. -/
theorem calc_error_partial :
    (∀ (m : BCModel) (o : List Int), (∀ v ∈ o, 0 ≤ v) → ∃ s, m.calc_smix o = some s) ∧
    (∀ (m : BCModel) (o : List Int),
      (∀ b ∈ m.bond_list, b.1 < o.length ∧ b.2 < o.length) →
      (∀ v ∈ o, -(m.nmet : Int) ≤ v ∧ v < (m.nmet : Int)) →
      ∃ r, m.calc_ce o = some r) :=
  ⟨fun m o hpos => ⟨_, calc_smix_eq m o hpos⟩,
   fun m o hb hv => calc_ce_some m o hb hv⟩

/-- Witness for C7 at concrete invalid inputs of the dimer model. -/
theorem calc_error_partial_w :
    (∀ v ∈ ([5, 5] : List Int), 0 ≤ v) ∧
    (∃ s, dimM.calc_smix [5, 5] = some s) ∧
    (∃ r, dimM.calc_ce [-1, -1] = some r) :=
  ⟨by decide, calc_error_partial.1 dimM [5, 5] (by decide),
    calc_error_partial.2 dimM [-1, -1] (by decide) (by decide)⟩

/-! ### The coordination-number vector -/

/-- Counterexample for C8: a 1-atom skeleton has an empty bond list (from
the spec-modelled bond builder), and `np.bincount` of the empty source
column is the empty array — the CN vector has length 0, not length
`N = 1`. -/
theorem cn_length_cex :
    oneAtomM.bond_list = [] ∧ oneAtomM.cn.length = 0 ∧ oneAtomM.natoms = 1 ∧
      (0 : ℕ) ≠ 1 := by
  have hb : oneAtomM.bond_list = [] := by decide
  exact ⟨hb, by simp [BCModel.cn, BCModel.a1, hb, bincount], rfl, by norm_num⟩

/-- C8 (corrected): `CN[i]` is the number of bonds whose source is `i`,
but the vector has length `max source index + 1` (`0` when the bond list
is empty), not `N`: atoms whose index exceeds every bond source are
missing from it instead of getting CN 0.  A skeleton with fewer than two
atoms does yield an empty bond list (spec-modelled `build_bonds_arr`),
hence an empty — length-0, not length-`N` — CN vector. -/
theorem cn_shape :
    (∀ (m : BCModel) (i : ℕ), i < m.cn.length → m.cn.getD i 0 = m.a1.count i) ∧
    (∀ m : BCModel, m.cn.length
      = if m.a1.isEmpty then 0 else m.a1.foldr max 0 + 1) ∧
    (∀ (pos : List (ℚ × ℚ × ℚ)) (cutoff : ℚ), pos.length < 2 →
      build_bonds_arr pos cutoff = []) := by
  refine ⟨fun m i hi => bincount_getD hi 0, fun m => bincount_length m.a1, ?_⟩
  intro pos cutoff hlen
  match pos, hlen with
  | [], _ => rfl
  | [p], _ =>
    simp [build_bonds_arr, List.range_succ]

/-- Witness for C8 at the dimer model and a single-atom skeleton. -/
theorem cn_shape_w :
    0 < dimM.cn.length ∧ dimM.cn.getD 0 0 = dimM.a1.count 0 ∧
    ([((0 : ℚ), (0 : ℚ), (0 : ℚ))] : List (ℚ × ℚ × ℚ)).length < 2 ∧
    build_bonds_arr [((0 : ℚ), (0 : ℚ), (0 : ℚ))] 3 = [] :=
  ⟨by decide, cn_shape.1 dimM 0 (by decide), by norm_num,
    cn_shape.2.2 [((0 : ℚ), (0 : ℚ), (0 : ℚ))] 3 (by norm_num)⟩

/-! ### The shell map -/

theorem srf_nodup (m : BCModel) : m.srf.Nodup :=
  List.Nodup.filter _ (List.nodup_range _)

theorem srf_lt (m : BCModel) (hwf : m.WF) : ∀ a ∈ m.srf, a < m.natoms := by
  intro a ha
  have h1 : a ∈ List.range m.cn.length := List.mem_of_mem_filter ha
  have h2 : a < m.cn.length := List.mem_range.mp h1
  have h3 : m.cn.length ≤ m.natoms := by
    apply bincount_length_le
    intro s hs
    obtain ⟨b, hb, rfl⟩ := List.mem_map.mp hs
    exact (hwf b hb).1
  omega

theorem shellRoundsAux_spec (m : BCModel) :
    ∀ (fuel : ℕ) (rem : Finset ℕ) (rounds : List (List ℕ)),
      m.shellRoundsAux fuel rem = some rounds →
      rounds.flatten.Nodup ∧ (∀ a, a ∈ rounds.flatten ↔ a ∈ rem)
  | 0, rem, rounds, h => by
    rw [BCModel.shellRoundsAux] at h
    by_cases hrem : rem = ∅
    · rw [if_pos hrem] at h
      have hr := (Option.some.inj h).symm
      subst hr
      subst hrem
      simp
    · rw [if_neg hrem] at h
      exact absurd h (by simp)
  | fuel + 1, rem, rounds, h => by
    rw [BCModel.shellRoundsAux] at h
    by_cases hrem : rem = ∅
    · rw [if_pos hrem] at h
      have hr := (Option.some.inj h).symm
      subst hr
      subst hrem
      simp
    · rw [if_neg hrem] at h
      by_cases hsh : m.shellRound rem = []
      · rw [if_pos hsh] at h
        exact absurd h (by simp)
      · rw [if_neg hsh] at h
        cases hrec : m.shellRoundsAux fuel (rem \ (m.shellRound rem).toFinset) with
        | none =>
          rw [hrec] at h
          exact absurd h (by simp)
        | some rest =>
          rw [hrec, Option.map_some'] at h
          have hr := (Option.some.inj h).symm
          subst hr
          obtain ⟨hnd, hmem⟩ := shellRoundsAux_spec m fuel _ rest hrec
          have hsub : ∀ x ∈ m.shellRound rem, x ∈ rem := by
            intro x hx
            exact (Finset.mem_sort (α := ℕ) (· ≤ ·)).mp (List.mem_of_mem_filter hx)
          have hsnd : (m.shellRound rem).Nodup :=
            List.Nodup.filter _ (Finset.sort_nodup (· ≤ ·) rem)
          constructor
          · rw [List.flatten_cons]
            apply List.Nodup.append hsnd hnd
            intro x hx1 hx2
            have hx3 := (hmem x).mp hx2
            rw [Finset.mem_sdiff] at hx3
            exact hx3.2 (List.mem_toFinset.mpr hx1)
          · intro a
            rw [List.flatten_cons, List.mem_append, hmem a, Finset.mem_sdiff]
            constructor
            · rintro (ha | ⟨ha, -⟩)
              · exact hsub a ha
              · exact ha
            · intro ha
              by_cases has : a ∈ m.shellRound rem
              · exact Or.inl has
              · exact Or.inr ⟨ha, fun hc => has (List.mem_toFinset.mp hc)⟩

theorem join_reverse_perm (L : List (List ℕ)) : L.reverse.flatten.Perm L.flatten := by
  induction L with
  | nil => simp
  | cons a as ih =>
    simp only [List.reverse_cons, List.flatten_append, List.flatten_cons, List.flatten,
      List.append_nil]
    exact List.perm_append_comm.trans (List.Perm.append_left a ih)

/-- C9: whenever the shell-peeling loop terminates, the produced shell map
is a partition of the atom index set (every atom in exactly one shell);
the shells, renumbered so the innermost (last-assigned) one has index 0,
put the surface `srf` at the largest index, and `num_shells` equals that
largest index, `length - 1`. -/
theorem shell_map_partition (m : BCModel) (hwf : m.WF) (sm : List (List ℕ))
    (h : m.shell_map = some sm) :
    (∀ a, a ∈ sm.flatten ↔ a < m.natoms) ∧ sm.flatten.Nodup ∧
      m.num_shells = some (sm.length - 1) ∧ sm.getLast? = some m.srf := by
  have h0 := h
  rw [BCModel.shell_map] at h
  cases hrounds : m.shellRoundsAux m.natoms (Finset.range m.natoms \ m.srf.toFinset) with
  | none =>
    rw [hrounds] at h
    exact absurd h (by simp)
  | some rounds =>
    rw [hrounds, Option.map_some'] at h
    have hsm := (Option.some.inj h).symm
    obtain ⟨hnd, hmem⟩ := shellRoundsAux_spec m m.natoms _ rounds hrounds
    have hperm : sm.flatten.Perm ((m.srf :: rounds).flatten) := by
      rw [hsm]
      exact join_reverse_perm _
    refine ⟨?_, ?_, ?_, ?_⟩
    · intro a
      rw [hperm.mem_iff, List.flatten_cons, List.mem_append, hmem a, Finset.mem_sdiff,
        Finset.mem_range]
      constructor
      · rintro (ha | ⟨ha, -⟩)
        · exact srf_lt m hwf a ha
        · exact ha
      · intro ha
        by_cases has : a ∈ m.srf
        · exact Or.inl has
        · exact Or.inr ⟨ha, fun hc => has (List.mem_toFinset.mp hc)⟩
    · apply hperm.nodup_iff.mpr
      rw [List.flatten_cons]
      apply List.Nodup.append (srf_nodup m) hnd
      intro x hx1 hx2
      have hx3 := (hmem x).mp hx2
      rw [Finset.mem_sdiff] at hx3
      exact hx3.2 (List.mem_toFinset.mpr hx1)
    · rw [BCModel.num_shells, h0, Option.map_some']
    · rw [hsm, List.getLast?_reverse]
      rfl

/-- Witness for C9 at the dimer model, whose two under-coordinated atoms
form the single (surface) shell. -/
theorem shell_map_partition_w :
    dimM.WF ∧ dimM.shell_map = some [[0, 1]] ∧
    (∀ a, a ∈ ([[0, 1]] : List (List ℕ)).flatten ↔ a < dimM.natoms) ∧
    ([[0, 1]] : List (List ℕ)).flatten.Nodup ∧
    dimM.num_shells = some (([[0, 1]] : List (List ℕ)).length - 1) ∧
    ([[0, 1]] : List (List ℕ)).getLast? = some dimM.srf := by
  have hsm : dimM.shell_map = some [[0, 1]] := by decide
  have := shell_map_partition dimM (by decide) [[0, 1]] hsm
  exact ⟨by decide, hsm, this.1, this.2.1, this.2.2.1, this.2.2.2⟩

/-! ### Frame property of `metropolis` in the store model -/

theorem alloc_next (σ : Store) (l : List Int) : (σ.alloc l).2.next = σ.next + 1 := rfl

theorem alloc_fst (σ : Store) (l : List Int) : (σ.alloc l).1 = σ.next := rfl

theorem alloc_arrs_ne (σ : Store) (l : List Int) (k : ℕ) (h : k ≠ σ.next) :
    (σ.alloc l).2.arrs k = σ.arrs k := by
  simp [Store.alloc, h]

theorem write_arrs_ne (σ : Store) (r : ℕ) (l : List Int) (k : ℕ) (h : k ≠ r) :
    (σ.write r l).arrs k = σ.arrs k := by
  simp [Store.write, h]

theorem swapStore_next (σ : Store) (ordR i j : ℕ) :
    (swapStore σ ordR i j).next = σ.next + 1 := rfl

theorem swapStore_arrs_ne (σ : Store) (ordR i j k : ℕ) (h1 : k ≠ ordR)
    (h2 : k ≠ σ.next) : (swapStore σ ordR i j).arrs k = σ.arrs k := by
  unfold swapStore
  rw [write_arrs_ne _ _ _ _ h1, alloc_arrs_ne _ _ _ h2]

theorem metCopies_ordR (σ : Store) (inR : ℕ) : (metCopies σ inR).2.1 = σ.next := rfl

theorem metCopies_bestR (σ : Store) (inR : ℕ) :
    (metCopies σ inR).2.2 = σ.next + 1 := rfl

theorem metCopies_next (σ : Store) (inR : ℕ) :
    (metCopies σ inR).1.next = σ.next + 2 := rfl

theorem metCopies_arrs_ne (σ : Store) (inR k : ℕ) (h1 : k ≠ σ.next)
    (h2 : k ≠ σ.next + 1) : (metCopies σ inR).1.arrs k = σ.arrs k := by
  show ((σ.alloc (σ.arrs inR)).2.alloc
      ((σ.alloc (σ.arrs inR)).2.arrs (σ.alloc (σ.arrs inR)).1)).2.arrs k = σ.arrs k
  rw [alloc_arrs_ne _ _ k (by rw [alloc_next]; exact h2), alloc_arrs_ne _ _ k h1]

theorem metStepST_frame (m : BCModel) (rng : ℕ → ℕ × ℕ × ℝ) (n0 : ℕ)
    (base : ℕ → List Int) (s : Store × MetStateST) (a : ℕ) (s' : Store × MetStateST)
    (hP : n0 ≤ s.1.next ∧ n0 ≤ s.2.ordR ∧ n0 ≤ s.2.bestR ∧
      ∀ k, k < n0 → s.1.arrs k = base k)
    (h : metStepST m rng s a = some s') :
    n0 ≤ s'.1.next ∧ n0 ≤ s'.2.ordR ∧ n0 ≤ s'.2.bestR ∧
      ∀ k, k < n0 → s'.1.arrs k = base k := by
  obtain ⟨h1, h2, h3, h4⟩ := hP
  rw [metStepST] at h
  cases hce : m.calc_ce
      ((swapStore s.1 s.2.ordR (rng a).1 (rng a).2.1).arrs s.2.ordR) with
  | none =>
    rw [hce] at h
    exact absurd h (by simp)
  | some e =>
    rw [hce, Option.map_some'] at h
    have hs := (Option.some.inj h).symm
    subst hs
    have harrs : ∀ k, k < n0 →
        (swapStore s.1 s.2.ordR (rng a).1 (rng a).2.1).arrs k = base k := by
      intro k hk
      rw [swapStore_arrs_ne _ _ _ _ k (by omega) (by omega)]
      exact h4 k hk
    by_cases hc1 : (rng a).2.2 < e / s.2.prevE
    · rw [if_pos hc1]
      by_cases hc2 : e < s.2.bestE
      · rw [if_pos hc2]
        dsimp only
        refine ⟨?_, h2, ?_, ?_⟩
        · rw [alloc_next, swapStore_next]
          omega
        · rw [alloc_fst, swapStore_next]
          omega
        · intro k hk
          rw [alloc_arrs_ne _ _ k (by rw [swapStore_next]; omega)]
          exact harrs k hk
      · rw [if_neg hc2]
        dsimp only
        refine ⟨?_, h2, h3, harrs⟩
        rw [swapStore_next]
        omega
    · rw [if_neg hc1]
      dsimp only
      refine ⟨?_, ?_, h3, ?_⟩
      · rw [alloc_next, swapStore_next]
        omega
      · rw [alloc_fst, swapStore_next]
        omega
      · intro k hk
        rw [alloc_arrs_ne _ _ k (by rw [swapStore_next]; omega)]
        exact harrs k hk

/-- C10: `metropolis` never mutates the caller's ordering array.  In the
store model, the array at the caller's reference `inR` holds exactly its
original contents after the call, and the returned `best_ordering` is a
fresh reference distinct from `inR`. -/
theorem metropolisST_frame (m : BCModel) (inR n : ℕ) (rng : ℕ → ℕ × ℕ × ℝ)
    (σ : Store) (res : ℕ × ℝ × List ℝ) (σf : Store) (hin : inR < σ.next)
    (h : m.metropolisST inR n rng σ = some (res, σf)) :
    σf.arrs inR = σ.arrs inR ∧ res.1 ≠ inR := by
  rw [BCModel.metropolisST] at h
  by_cases hn : n = 0
  · rw [if_pos hn] at h
    exact absurd h (by simp)
  rw [if_neg hn] at h
  cases hce : m.calc_ce ((metCopies σ inR).1.arrs (metCopies σ inR).2.1) with
  | none =>
    rw [hce] at h
    exact absurd h (by simp)
  | some e0 =>
    rw [hce, Option.some_bind] at h
    cases hfold : ofold (metStepST m rng) (List.range' 1 (n - 1))
        ((metCopies σ inR).1,
         ⟨(metCopies σ inR).2.1, (metCopies σ inR).2.2, e0, e0, [e0]⟩) with
    | none =>
      rw [hfold] at h
      exact absurd h (by simp)
    | some sf =>
      rw [hfold, Option.map_some'] at h
      have hres := Option.some.inj h
      rw [Prod.mk.injEq] at hres
      obtain ⟨hres1, hσf⟩ := hres
      have hP := ofold_invariant (metStepST m rng)
        (fun s => σ.next ≤ s.1.next ∧ σ.next ≤ s.2.ordR ∧ σ.next ≤ s.2.bestR ∧
          ∀ k, k < σ.next → s.1.arrs k = σ.arrs k)
        (fun s a s' hPs hstep => metStepST_frame m rng σ.next σ.arrs s a s' hPs hstep)
        (List.range' 1 (n - 1)) _ sf
        ⟨by show σ.next ≤ (metCopies σ inR).1.next
            rw [metCopies_next]
            omega,
         by show σ.next ≤ (metCopies σ inR).2.1
            rw [metCopies_ordR],
         by show σ.next ≤ (metCopies σ inR).2.2
            rw [metCopies_bestR]
            omega,
         fun k hk => by
           show (metCopies σ inR).1.arrs k = σ.arrs k
           exact metCopies_arrs_ne σ inR k (by omega) (by omega)⟩
        hfold
      constructor
      · rw [← hσf]
        exact hP.2.2.2 inR hin
      · rw [← hres1]
        show sf.2.bestR ≠ inR
        have hb := hP.2.2.1
        omega

/-- Witness for C10: a one-step run on the star model, starting from a
store whose only allocated array (reference 0) is the input ordering. -/
theorem metropolisST_frame_w :
    (0 : ℕ) < (⟨fun _ => ([0, 1, 0, 0] : List Int), 1⟩ : Store).next ∧
    starM.metropolisST 0 1 rngA ⟨fun _ => [0, 1, 0, 0], 1⟩
      = some ((2, 4, [4]), (metCopies ⟨fun _ => [0, 1, 0, 0], 1⟩ 0).1) ∧
    (metCopies (⟨fun _ => [0, 1, 0, 0], 1⟩ : Store) 0).1.arrs 0
      = (⟨fun _ => ([0, 1, 0, 0] : List Int), 1⟩ : Store).arrs 0 ∧
    (2 : ℕ) ≠ 0 := by
  have harr : (metCopies (⟨fun _ => [0, 1, 0, 0], 1⟩ : Store) 0).1.arrs
      (metCopies (⟨fun _ => [0, 1, 0, 0], 1⟩ : Store) 0).2.1 = [0, 1, 0, 0] := by
    simp [metCopies, Store.alloc]
  have heval : starM.metropolisST 0 1 rngA ⟨fun _ => [0, 1, 0, 0], 1⟩
      = some ((2, 4, [4]), (metCopies ⟨fun _ => [0, 1, 0, 0], 1⟩ 0).1) := by
    rw [BCModel.metropolisST, if_neg (by norm_num), harr, starM_ce_0100]
    rfl
  have hmain := metropolisST_frame starM 0 1 rngA ⟨fun _ => [0, 1, 0, 0], 1⟩
    (2, 4, [4]) (metCopies ⟨fun _ => [0, 1, 0, 0], 1⟩ 0).1 (by norm_num) heval
  exact ⟨by norm_num, heval, hmain.1, hmain.2⟩

end CE
